import Mathlib

/-!
Verification of the fuzzy contact-retrieval core of `agent.py`
(`ContactSearchAssistant`): the query expander `_preprocess_query`, the
candidate merger `_search_contacts` and the response formatter
`_format_contact_response`.

Python strings are modelled as `List Char` (`Str`).  `str.lower()` is
modelled by ASCII lowering (`pyLower`), which agrees with Python on the
ASCII strings occurring in the fixed tables and in all concrete inputs
considered here.  Similarity scores (floats in the source) are modelled as
exact rationals `ℚ`; Python's `round(x, 3)` is modelled by round-half-up
rational rounding `round3` (the two conventions agree away from exact
half-thousandth boundaries, and no boundary value occurs in any concrete
input below).  The external OpenAI embedding call and the Pinecone index
query, which the source performs per query variant inside one `try` block,
are modelled together as an oracle `Str → Option (List MatchR)`: `none`
models an exception raised inside the per-variant `try`, `some ms` models a
successful response whose matches are `ms`.
-/

namespace VoiceNet

/-- A Python string: a list of characters. -/
abbrev Str := List Char

/-- Shorthand turning a Lean string literal into a `Str`. -/
def S (s : String) : Str := s.toList

/-- The 26 ASCII uppercase characters; our model of "uppercase". -/
def upperChars : Str :=
  ['A', 'B', 'C', 'D', 'E', 'F', 'G', 'H', 'I', 'J', 'K', 'L', 'M',
   'N', 'O', 'P', 'Q', 'R', 'S', 'T', 'U', 'V', 'W', 'X', 'Y', 'Z']

/-- The ASCII uppercase → lowercase table. -/
def lowerPairs : List (Char × Char) :=
  [('A', 'a'), ('B', 'b'), ('C', 'c'), ('D', 'd'), ('E', 'e'), ('F', 'f'),
   ('G', 'g'), ('H', 'h'), ('I', 'i'), ('J', 'j'), ('K', 'k'), ('L', 'l'),
   ('M', 'm'), ('N', 'n'), ('O', 'o'), ('P', 'p'), ('Q', 'q'), ('R', 'r'),
   ('S', 's'), ('T', 't'), ('U', 'u'), ('V', 'v'), ('W', 'w'), ('X', 'x'),
   ('Y', 'y'), ('Z', 'z')]

/-- ASCII lowering of one character, modelling Python `str.lower()`
    character-wise on ASCII input. -/
def pyLower (c : Char) : Char :=
  ((lowerPairs.find? fun p => p.1 = c).map Prod.snd).getD c

/-- Model of Python `s.lower()`. -/
def toLowerStr (s : Str) : Str := s.map pyLower

/-- Whitespace characters recognised by `strip`/`split`. -/
def isWS (c : Char) : Bool := c = ' ' || c = '\t' || c = '\n' || c = '\r'

/-- Model of Python `s.strip()`. -/
def strip (s : Str) : Str :=
  ((s.dropWhile isWS).reverse.dropWhile isWS).reverse

/-- Helper of `splitWS`: accumulates the current word (reversed). -/
def splitWSAux : Str → Str → List Str
  | [], acc => if acc = [] then [] else [acc.reverse]
  | c :: t, acc =>
    if isWS c then
      (if acc = [] then splitWSAux t [] else acc.reverse :: splitWSAux t [])
    else splitWSAux t (c :: acc)

/-- Model of Python `s.split()` (split on whitespace runs, no empties). -/
def splitWS (s : Str) : List Str := splitWSAux s []

/-- Model of Python `sep.join(ws)`. -/
def joinWith (sep : Str) : List Str → Str
  | [] => []
  | [w] => w
  | w :: ws => w ++ sep ++ joinWith sep ws

/-- Model of Python `' '.join(ws)`. -/
def joinSp (ws : List Str) : Str := joinWith [' '] ws

/-- `startsWith s p` holds when `p` is a leading segment of `s`. -/
def startsWith : Str → Str → Bool
  | _, [] => true
  | [], _ :: _ => false
  | a :: as, b :: bs => a == b && startsWith as bs

/-- Model of Python `p in s` (substring containment). -/
def containsS : Str → Str → Bool
  | [], pat => startsWith [] pat
  | c :: t, pat => startsWith (c :: t) pat || containsS t pat

/-- Model of Python `s.endswith(p)`. -/
def endsWithS (s p : Str) : Bool := startsWith s.reverse p.reverse

/-- Fuelled worker of `replaceAll` (structural recursion on the fuel, so
    that the kernel can evaluate it; `fuel ≥ s.length` always suffices). -/
def replaceAllFuel : Nat → Str → Str → Str → Str
  | 0, s, _, _ => s
  | fuel + 1, s, pat, rep =>
    match s with
    | [] => []
    | c :: t =>
      if pat.length ≠ 0 ∧ startsWith (c :: t) pat = true then
        rep ++ replaceAllFuel fuel ((c :: t).drop pat.length) pat rep
      else
        c :: replaceAllFuel fuel t pat rep

/-- Model of Python `s.replace(pat, rep)` (all non-overlapping occurrences,
    left to right).  The source never calls it with an empty pattern, for
    which this model is the identity. -/
def replaceAll (s pat rep : Str) : Str := replaceAllFuel s.length s pat rep

/-- The speech-to-text `corrections` table of `_preprocess_query`, in
    source (insertion) order. -/
def corrections : List (Str × Str) :=
  [(S "engineergs", S "engineers"),
   (S "engineerg", S "engineer"),
   (S "enginners", S "engineers"),
   (S "enginer", S "engineer"),
   (S "developpers", S "developers"),
   (S "develper", S "developer"),
   (S "mangager", S "manager"),
   (S "mangers", S "managers"),
   (S "desiner", S "designer"),
   (S "desingers", S "designers"),
   (S "anlyst", S "analyst"),
   (S "anlysts", S "analysts"),
   (S "scrum master", S "scrum master"),
   (S "scrummaster", S "scrum master"),
   (S "devops", S "devops engineer"),
   (S "datascientist", S "data scientist"),
   (S "prodcut", S "product"),
   (S "frontent", S "frontend"),
   (S "bakend", S "backend"),
   (S "fullstack", S "full stack")]

/-- The `role_expansions` table of `_preprocess_query`, in source order. -/
def roleExpansions : List (Str × List Str) :=
  [(S "engineer", [S "engineer", S "engineering", S "software engineer", S "developer"]),
   (S "engineers", [S "engineers", S "engineering", S "software engineers", S "developers"]),
   (S "dev", [S "developer", S "engineer", S "software engineer"]),
   (S "devs", [S "developers", S "engineers", S "software engineers"]),
   (S "designer", [S "designer", S "design", S "ux designer", S "ui designer", S "graphic designer"]),
   (S "designers", [S "designers", S "design", S "ux designers", S "ui designers", S "graphic designers"]),
   (S "manager", [S "manager", S "management", S "project manager", S "product manager"]),
   (S "managers", [S "managers", S "management", S "project managers", S "product managers"]),
   (S "pm", [S "product manager", S "project manager", S "manager"]),
   (S "qa", [S "quality assurance", S "tester", S "qa engineer"]),
   (S "sales", [S "sales", S "sales representative", S "account executive"]),
   (S "marketing", [S "marketing", S "digital marketing", S "marketing specialist"])]

/-- The correction loop of `_preprocess_query`: starting from the running
    lowercased string `cq`, applies each table entry whose pattern occurs as
    a substring, and records a snapshot of the running string after each
    applied correction (the variants appended by the loop). -/
def corrSnapshots : List (Str × Str) → Str → List Str
  | [], _ => []
  | (w, r) :: rest, cq =>
    if containsS cq w then
      let cq2 := replaceAll cq w r
      cq2 :: corrSnapshots rest cq2
    else
      corrSnapshots rest cq

/-- Variants appended by the typo-correction step (step 2) on query `q`. -/
def corrVariants (q : Str) : List Str := corrSnapshots corrections (toLowerStr q)

/-- The variants contributed by one token of the plural/singular step. -/
def pluralAt (words : List Str) (i : Nat) (w : Str) : List Str :=
  let wl := toLowerStr w
  (if endsWithS wl (S "s") = false ∧ 3 < wl.length then
     [joinSp (words.set i (w ++ S "s"))]
   else []) ++
  (if endsWithS wl (S "s") = true ∧ 4 < wl.length then
     [joinSp (words.set i w.dropLast)]
   else [])

/-- Variants appended by the singular/plural step (step 3) on query `q`. -/
def pluralVariants (q : Str) : List Str :=
  let words := splitWS q
  words.enum.flatMap fun p => pluralAt words p.1 p.2

/-- Variants appended by the role-synonym expansion step (step 4) on `q`. -/
def synVariants (q : Str) : List Str :=
  let ql := toLowerStr q
  roleExpansions.flatMap fun p =>
    if containsS ql p.1 then p.2.map fun e => replaceAll ql p.1 e else []

/-- Case-insensitive first-seen deduplication (`seen` holds lowered forms
    already emitted). -/
def dedupCIAux : List Str → List Str → List Str
  | _, [] => []
  | seen, v :: rest =>
    if toLowerStr v ∈ seen then dedupCIAux seen rest
    else v :: dedupCIAux (toLowerStr v :: seen) rest

/-- Model of `_preprocess_query`: original (stripped) text, correction
    snapshots, singular/plural variants, synonym expansions; case-insensitive
    dedup preserving order; truncation to 5. -/
def preprocessQuery (q : Str) : List Str :=
  (dedupCIAux [] (strip q :: (corrVariants q ++ pluralVariants q ++ synVariants q))).take 5

/-- One Pinecone match: a raw similarity score and the metadata fields
    (`none` models a key absent from `match.metadata`). -/
structure MatchR where
  score : ℚ
  name : Option Str
  title : Option Str
  company : Option Str
  location : Option Str
  industry : Option Str
deriving DecidableEq

/-- One entry of the contact dictionaries built by `_search_contacts`. -/
structure Contact where
  name : Str
  title : Str
  company : Str
  location : Str
  industry : Str
  score : ℚ
  query_used : Str
deriving DecidableEq

/-- The hard-coded relevance threshold of `_search_contacts`
    (`match.score > 0.25`), as a kernel-computable rational. -/
def minScore : ℚ := mkRat 1 4

theorem minScore_eq : minScore = 1/4 := by
  rw [minScore, Rat.mkRat_eq_divInt, Rat.divInt_eq_div]
  norm_num

/-- Model of Python `round(x, 3)` on exact rationals (round half up). -/
def round3 (x : ℚ) : ℚ := mkRat (x * 1000 + mkRat 1 2).floor 1000

/-- The deduplication key of a match: `match.metadata.get("name", "")`. -/
def keyOf (m : MatchR) : Str := m.name.getD []

/-- The contact record built from a kept match under variant `v`. -/
def mkContact (m : MatchR) (v : Str) : Contact :=
  { name := keyOf m
    title := m.title.getD []
    company := m.company.getD []
    location := m.location.getD []
    industry := m.industry.getD []
    score := round3 m.score
    query_used := v }

/-- The `all_contacts` dictionary: an insertion-ordered association list,
    as Python dicts preserve insertion order and in-place updates. -/
abbrev Dict := List (Str × Contact)

/-- First-match association lookup (`name in all_contacts` plus access). -/
def lookupA : Dict → Str → Option Contact
  | [], _ => none
  | (k, c) :: t, n => if k = n then some c else lookupA t n

/-- In-place value update at an existing key (Python dict assignment). -/
def updateA : Dict → Str → Contact → Dict
  | [], _, _ => []
  | (k, c) :: t, n, c2 => if k = n then (k, c2) :: t else (k, c) :: updateA t n c2

/-- Processing of one match of one variant by `_search_contacts`:
    keep it only when `match.score > 0.25`; skip when the stored entry for
    its name has `stored.score >= match.score`; otherwise (re)assign. -/
def procMatch (v : Str) (acc : Dict) (m : MatchR) : Dict :=
  if minScore < m.score then
    match lookupA acc (keyOf m) with
    | some c =>
      if m.score ≤ c.score then acc else updateA acc (keyOf m) (mkContact m v)
    | none => acc ++ [(keyOf m, mkContact m v)]
  else acc

/-- The per-variant embedding + index call, abstracted as an oracle;
    `none` is an exception caught by the per-variant `try`, which leaves
    `all_contacts` untouched. -/
def procVariant (o : Str → Option (List MatchR)) (acc : Dict) (v : Str) : Dict :=
  match o v with
  | none => acc
  | some ms => ms.foldl (procMatch v) acc

/-- The fully accumulated `all_contacts` dictionary of `_search_contacts`. -/
def accumContacts (q : Str) (o : Str → Option (List MatchR)) : Dict :=
  (preprocessQuery q).foldl (procVariant o) []

/-- Stable descending insertion (ties keep earlier elements first),
    matching Python `list.sort(key=score, reverse=True)`. -/
def insertDesc (c : Contact) : List Contact → List Contact
  | [] => [c]
  | d :: ds => if c.score < d.score then d :: insertDesc c ds else c :: d :: ds

/-- Stable sort by score descending. -/
def sortDesc (l : List Contact) : List Contact := l.foldr insertDesc []

/-- Model of `_search_contacts(query, top_k)`: accumulate all variants'
    matches into the deduplicating dictionary, sort its values by score
    descending (stable) and truncate to `top_k`.  The surrounding outer
    `try` of the source can only be entered through the per-variant calls,
    which are already modelled by the oracle, so the model is total. -/
def searchContacts (q : Str) (k : Nat) (o : Str → Option (List MatchR)) :
    List Contact :=
  (sortDesc ((accumContacts q o).map Prod.snd)).take k

/-- The inputs of the `embeddings.create` calls issued by
    `_search_contacts(q, …)`: the loop body calls the Embedding Provider
    once, unconditionally, for every query variant. -/
def embedCalls (q : Str) : List Str := preprocessQuery q

/-- Decimal rendering of a result count (Python f-string interpolation). -/
def natStr (n : Nat) : Str := (toString n).toList

/-- Model of Python `', '.join(l)`. -/
def joinCommaSp (l : List Str) : Str := joinWith (S ", ") l

/-- The `by_company` grouping key: `c["company"] or "Other"`. -/
def companyKey (c : Contact) : Str := if c.company = [] then S "Other" else c.company

/-- Order-preserving first-occurrence deduplication (dict key order). -/
def dedupFirstAux : List Str → List Str → List Str
  | _, [] => []
  | seen, x :: t =>
    if x ∈ seen then dedupFirstAux seen t
    else x :: dedupFirstAux (x :: seen) t

/-- The keys of a dict built by repeated `setdefault`, in insertion order. -/
def dedupFirst (l : List Str) : List Str := dedupFirstAux [] l

/-- The keys of `by_company` in insertion order. -/
def companyKeys (cs : List Contact) : List Str := dedupFirst (cs.map companyKey)

/-- The suggestion list of the zero-result branch. -/
def suggestionsFor (ql : Str) : List Str :=
  if containsS ql (S "engineer") then
    [S "engineers", S "developers", S "software engineers"]
  else if containsS ql (S "design") then
    [S "designers", S "UX designers", S "UI designers"]
  else if containsS ql (S "manager") || containsS ql (S "manag") then
    [S "managers", S "product managers", S "project managers"]
  else if containsS ql (S "dev") then
    [S "developers", S "engineers", S "software developers"]
  else []

/-- The zero-result branch of `_format_contact_response`. -/
def zeroResp (q : Str) : Str :=
  let sugg := suggestionsFor (toLowerStr q)
  S "I searched for '" ++ q ++ S "' but found no matches. " ++
    (if sugg = [] then S "Would you like to try a different term?"
     else S "You might try searching for: " ++ joinCommaSp (sugg.take 3) ++ S ".")

/-- The single-result branch of `_format_contact_response`. -/
def oneResp (c : Contact) : Str :=
  let parts : List Str :=
    [c.name] ++
    (if c.title = [] then [] else [S "a " ++ c.title]) ++
    (if c.company = [] then [] else [S "at " ++ c.company]) ++
    (if c.location = [] then [] else [S "in " ++ c.location]) ++
    (if c.industry = [] then [] else [S "in the " ++ c.industry ++ S " industry"])
  S "I found " ++ joinSp parts ++ S "."

/-- One listed snippet of the multi-result branch (`nc` = number of
    distinct `by_company` keys). -/
def snippet (nc : Nat) (c : Contact) : Str :=
  c.name ++
  (if c.title = [] then [] else S ", " ++ c.title) ++
  (if c.company ≠ [] ∧ 1 < nc then S " at " ++ c.company else [])

/-- The multi-result branch of `_format_contact_response`. -/
def multiResp (cs : List Contact) (q : Str) : Str :=
  let nc := (companyKeys cs).length
  S "I found " ++ natStr cs.length ++ S " people matching '" ++ q ++ S "'. " ++
    (if nc = 1 then S "They all work at " ++ (companyKeys cs).headD [] ++ S ". "
     else []) ++
    S "Here are a few: " ++ joinCommaSp ((cs.take 3).map (snippet nc)) ++
    (if 3 < cs.length then S ", and " ++ natStr (cs.length - 3) ++ S " more."
     else [])

/-- Model of `_format_contact_response(contacts, query)`. -/
def formatContactResponse (cs : List Contact) (q : Str) : Str :=
  match cs with
  | [] => zeroResp q
  | [c] => oneResp c
  | _ => multiResp cs q

/-- The (variant, match) pairs contributed by one variant: none on a
    per-variant failure, else the matches passing the `score > 0.25` filter. -/
def pairsOf (o : Str → Option (List MatchR)) (v : Str) : List (Str × MatchR) :=
  match o v with
  | none => []
  | some ms => (ms.filter fun m => minScore < m.score).map fun m => (v, m)

/-- All (variant, match) pairs that pass the `score > 0.25` filter, across
    the successful variants, in processing order. -/
def keptPairs (q : Str) (o : Str → Option (List MatchR)) : List (Str × MatchR) :=
  (preprocessQuery q).flatMap (pairsOf o)

/-- Folding a list of kept (variant, match) pairs through `procMatch`. -/
def foldPairs (ps : List (Str × MatchR)) (acc : Dict) : Dict :=
  ps.foldl (fun a p => procMatch p.1 a p.2) acc

theorem ratFloor_eq (y : ℚ) : y.floor = ⌊y⌋ :=
  le_antisymm ((Int.le_floor).2 (Rat.le_floor.1 (le_refl _)))
    ((Rat.le_floor).2 (Int.le_floor.1 (le_refl _)))

theorem round3_eq (x : ℚ) : round3 x = ((⌊x * 1000 + 1/2⌋ : ℤ) : ℚ) / 1000 := by
  unfold round3
  rw [Rat.mkRat_eq_divInt, Rat.divInt_eq_div, ratFloor_eq]
  have h2 : (mkRat 1 2 : ℚ) = 1/2 := by
    rw [Rat.mkRat_eq_divInt, Rat.divInt_eq_div]
    norm_num
  rw [h2]
  norm_num

theorem round3_mono {a b : ℚ} (h : a ≤ b) : round3 a ≤ round3 b := by
  rw [round3_eq, round3_eq]
  have hf : ⌊a * 1000 + 1/2⌋ ≤ ⌊b * 1000 + 1/2⌋ := Int.floor_mono (by linarith)
  have hc : ((⌊a * 1000 + 1/2⌋ : ℤ) : ℚ) ≤ ((⌊b * 1000 + 1/2⌋ : ℤ) : ℚ) := by
    exact_mod_cast hf
  linarith

theorem round3_idem (a : ℚ) : round3 (round3 a) = round3 a := by
  rw [round3_eq, round3_eq]
  have h : ((⌊a * 1000 + 1/2⌋ : ℤ) : ℚ) / 1000 * 1000 = ((⌊a * 1000 + 1/2⌋ : ℤ) : ℚ) := by
    field_simp
  rw [h]
  rw [show (((⌊a * 1000 + 1/2⌋ : ℤ) : ℚ) + 1/2) = ((⌊a * 1000 + 1/2⌋ : ℤ) : ℚ) + 1/2 from rfl]
  rw [add_comm ((⌊a * 1000 + 1/2⌋ : ℤ) : ℚ) (1/2 : ℚ), Int.floor_add_int]
  norm_num

theorem round3_threshold {s : ℚ} (h : minScore < s) : minScore ≤ round3 s := by
  rw [minScore_eq] at *
  rw [round3_eq]
  have h250 : (250 : ℤ) ≤ ⌊s * 1000 + 1/2⌋ := by
    rw [Int.le_floor]
    push_cast
    linarith
  have h' : (250 : ℚ) ≤ ((⌊s * 1000 + 1/2⌋ : ℤ) : ℚ) := by exact_mod_cast h250
  linarith

theorem lookupA_eq_none {acc : Dict} {n : Str} :
    lookupA acc n = none ↔ n ∉ acc.map Prod.fst := by
  induction acc with
  | nil => simp [lookupA]
  | cons p t ih =>
    obtain ⟨k, c⟩ := p
    by_cases h : k = n
    · subst h
      simp only [lookupA, if_pos rfl, List.map_cons, List.mem_cons]
      constructor
      · intro hc
        cases hc
      · intro hc
        exact absurd (Or.inl trivial) hc
    · simp only [lookupA, if_neg h, List.map_cons, List.mem_cons]
      rw [ih]
      constructor
      · intro hc hor
        rcases hor with h1 | h1
        · exact h h1.symm
        · exact hc h1
      · intro hc
        exact fun h1 => hc (Or.inr h1)

theorem map_fst_updateA (acc : Dict) (n : Str) (c : Contact) :
    (updateA acc n c).map Prod.fst = acc.map Prod.fst := by
  induction acc with
  | nil => rfl
  | cons p t ih =>
    obtain ⟨k, c'⟩ := p
    by_cases h : k = n
    · simp [updateA, h]
    · simp [updateA, h, ih]

theorem lookupA_mem_eq {acc : Dict} {n : Str} {c : Contact}
    (hnd : (acc.map Prod.fst).Nodup) (hm : (n, c) ∈ acc) :
    lookupA acc n = some c := by
  induction acc with
  | nil => simp at hm
  | cons p t ih =>
    obtain ⟨k, c'⟩ := p
    simp only [List.map_cons, List.nodup_cons] at hnd
    rcases List.mem_cons.1 hm with h | h
    · simp only [Prod.mk.injEq] at h
      obtain ⟨h1, h2⟩ := h
      subst h1
      subst h2
      simp [lookupA]
    · have hkn : k ≠ n := by
        intro he
        exact hnd.1 (he ▸ (List.mem_map.2 ⟨(n, c), h, rfl⟩))
      simp [lookupA, hkn, ih hnd.2 h]

theorem mem_updateA {acc : Dict} {n : Str} {c c2 : Contact} {pr : Str × Contact}
    (hl : lookupA acc n = some c) (hnd : (acc.map Prod.fst).Nodup) :
    pr ∈ updateA acc n c2 ↔ pr = (n, c2) ∨ (pr ∈ acc ∧ pr.1 ≠ n) := by
  induction acc with
  | nil => simp [lookupA] at hl
  | cons p t ih =>
    obtain ⟨k, c'⟩ := p
    simp only [List.map_cons, List.nodup_cons] at hnd
    by_cases h : k = n
    · subst h
      have hkt : ∀ pr' ∈ t, pr'.1 ≠ k := by
        intro pr' hpr' he
        exact hnd.1 (he ▸ (List.mem_map.2 ⟨pr', hpr', rfl⟩))
      simp only [updateA, if_pos rfl]
      constructor
      · intro hmem
        rcases List.mem_cons.1 hmem with h1 | h1
        · exact Or.inl h1
        · exact Or.inr ⟨List.mem_cons_of_mem _ h1, hkt _ h1⟩
      · intro hmem
        rcases hmem with h1 | ⟨h1, h2⟩
        · exact h1 ▸ List.mem_cons_self _ _
        · rcases List.mem_cons.1 h1 with h3 | h3
          · exact absurd (h3 ▸ rfl) h2
          · exact List.mem_cons_of_mem _ h3
    · have hl' : lookupA t n = some c := by
        simpa [lookupA, h] using hl
      simp only [updateA, if_neg h]
      constructor
      · intro hmem
        rcases List.mem_cons.1 hmem with h1 | h1
        · refine Or.inr ⟨h1 ▸ List.mem_cons_self _ _, ?_⟩
          simpa [h1] using h
        · rcases (ih hl' hnd.2).1 h1 with h2 | ⟨h2, h3⟩
          · exact Or.inl h2
          · exact Or.inr ⟨List.mem_cons_of_mem _ h2, h3⟩
      · intro hmem
        rcases hmem with h1 | ⟨h1, h2⟩
        · exact List.mem_cons_of_mem _ ((ih hl' hnd.2).2 (Or.inl h1))
        · rcases List.mem_cons.1 h1 with h3 | h3
          · exact h3 ▸ List.mem_cons_self _ _
          · exact List.mem_cons_of_mem _ ((ih hl' hnd.2).2 (Or.inr ⟨h3, h2⟩))

theorem lookupA_mem {acc : Dict} {n : Str} {c : Contact}
    (h : lookupA acc n = some c) : (n, c) ∈ acc := by
  induction acc with
  | nil => simp [lookupA] at h
  | cons p t ih =>
    obtain ⟨k, c'⟩ := p
    by_cases hk : k = n
    · subst hk
      have h' : c' = c := by simpa [lookupA] using h
      subst h'
      exact List.mem_cons_self _ _
    · simp only [lookupA, if_neg hk] at h
      exact List.mem_cons_of_mem _ (ih h)

/-- Correctness of one stored entry relative to the processed pairs `P`:
    its value's name is its key, it was built from one processed kept match
    with that key, and its score dominates the rounded score of every
    processed kept match with that key. -/
def entryOK (P : List (Str × MatchR)) (pr : Str × Contact) : Prop :=
  pr.2.name = pr.1 ∧
  (∃ p ∈ P, keyOf p.2 = pr.1 ∧ pr.2 = mkContact p.2 p.1) ∧
  (∀ p ∈ P, keyOf p.2 = pr.1 → round3 p.2.score ≤ pr.2.score)

/-- Invariant of the `all_contacts` dictionary after processing pairs `P`. -/
def dictInv (P : List (Str × MatchR)) (acc : Dict) : Prop :=
  (acc.map Prod.fst).Nodup ∧
  (∀ p ∈ P, keyOf p.2 ∈ acc.map Prod.fst) ∧
  (∀ pr ∈ acc, entryOK P pr)

theorem entryOK_score_round {P pr} (h : entryOK P pr) :
    ∃ s, pr.2.score = round3 s := by
  obtain ⟨_, ⟨p, _, _, hmk⟩, _⟩ := h
  exact ⟨p.2.score, by rw [hmk]; rfl⟩

theorem dictInv_step {P : List (Str × MatchR)} {acc : Dict} {v : Str}
    {m : MatchR} (hs : minScore < m.score) (hinv : dictInv P acc) :
    dictInv (P ++ [(v, m)]) (procMatch v acc m) := by
  obtain ⟨hnd, hcov, hent⟩ := hinv
  unfold procMatch
  rw [if_pos hs]
  cases hl : lookupA acc (keyOf m) with
  | none =>
    dsimp only
    have hnot : keyOf m ∉ acc.map Prod.fst := lookupA_eq_none.1 hl
    refine ⟨?_, ?_, ?_⟩
    · rw [List.map_append]
      refine hnd.append (List.nodup_singleton _) ?_
      intro a ha hb
      simp only [List.map_cons, List.map_nil, List.mem_singleton] at hb
      exact hnot (hb ▸ ha)
    · intro p hp
      rw [List.map_append]
      rcases List.mem_append.1 hp with h1 | h1
      · exact List.mem_append_left _ (hcov p h1)
      · simp only [List.mem_singleton] at h1
        subst h1
        exact List.mem_append_right _ (List.mem_singleton.2 rfl)
    · intro pr hpr
      rcases List.mem_append.1 hpr with h1 | h1
      · obtain ⟨hname, hex, hall⟩ := hent pr h1
        refine ⟨hname, ?_, ?_⟩
        · obtain ⟨p, hp, hk, hc⟩ := hex
          exact ⟨p, List.mem_append_left _ hp, hk, hc⟩
        · intro p hp hk
          rcases List.mem_append.1 hp with h2 | h2
          · exact hall p h2 hk
          · simp only [List.mem_singleton] at h2
            subst h2
            exfalso
            have hx : pr.1 ∈ acc.map Prod.fst := List.mem_map.2 ⟨pr, h1, rfl⟩
            rw [← hk] at hx
            exact hnot hx
      · simp only [List.mem_singleton] at h1
        subst h1
        refine ⟨rfl, ⟨(v, m), List.mem_append_right _ (List.mem_singleton.2 rfl), rfl, rfl⟩, ?_⟩
        intro p hp hk
        rcases List.mem_append.1 hp with h2 | h2
        · exfalso
          have hx := hcov p h2
          rw [hk] at hx
          exact hnot hx
        · simp only [List.mem_singleton] at h2
          subst h2
          exact le_refl _
  | some c =>
    dsimp only
    have hkeymem : keyOf m ∈ acc.map Prod.fst := by
      by_contra hno
      rw [← lookupA_eq_none] at hno
      rw [hl] at hno
      cases hno
    have hcmem : (keyOf m, c) ∈ acc := lookupA_mem hl
    have hcOK : entryOK P (keyOf m, c) := hent _ hcmem
    have hcround : ∃ s, c.score = round3 s := entryOK_score_round hcOK
    by_cases hle : m.score ≤ c.score
    · rw [if_pos hle]
      refine ⟨hnd, ?_, ?_⟩
      · intro p hp
        rcases List.mem_append.1 hp with h1 | h1
        · exact hcov p h1
        · simp only [List.mem_singleton] at h1
          subst h1
          exact hkeymem
      · intro pr hpr
        obtain ⟨hname, hex, hall⟩ := hent pr hpr
        refine ⟨hname, ?_, ?_⟩
        · obtain ⟨p, hp, hk, hc⟩ := hex
          exact ⟨p, List.mem_append_left _ hp, hk, hc⟩
        · intro p hp hk
          rcases List.mem_append.1 hp with h2 | h2
          · exact hall p h2 hk
          · simp only [List.mem_singleton] at h2
            subst h2
            have hprc : pr.2 = c := by
              have hup : lookupA acc pr.1 = some pr.2 :=
                lookupA_mem_eq hnd (show (pr.1, pr.2) ∈ acc from hpr)
              rw [hk] at hl
              rw [hup] at hl
              exact Option.some.inj hl
            obtain ⟨s, hrs⟩ := hcround
            calc round3 m.score ≤ round3 c.score := round3_mono hle
              _ = c.score := by rw [hrs, round3_idem]
              _ = pr.2.score := by rw [hprc]
    · rw [if_neg hle]
      push_neg at hle
      have hcle : c.score ≤ round3 m.score := by
        obtain ⟨s, hrs⟩ := hcround
        calc c.score = round3 c.score := by rw [hrs, round3_idem]
          _ ≤ round3 m.score := round3_mono (le_of_lt hle)
      refine ⟨?_, ?_, ?_⟩
      · rw [map_fst_updateA]
        exact hnd
      · intro p hp
        rw [map_fst_updateA]
        rcases List.mem_append.1 hp with h1 | h1
        · exact hcov p h1
        · simp only [List.mem_singleton] at h1
          subst h1
          exact hkeymem
      · intro pr hpr
        rcases (mem_updateA hl hnd).1 hpr with h1 | ⟨h1, h2⟩
        · subst h1
          refine ⟨rfl, ⟨(v, m), List.mem_append_right _ (List.mem_singleton.2 rfl), rfl, rfl⟩, ?_⟩
          intro p hp hk
          rcases List.mem_append.1 hp with h2 | h2
          · have := (hent _ hcmem).2.2 p h2 hk
            exact le_trans this hcle
          · simp only [List.mem_singleton] at h2
            subst h2
            exact le_refl _
        · obtain ⟨hname, hex, hall⟩ := hent pr h1
          refine ⟨hname, ?_, ?_⟩
          · obtain ⟨p, hp, hk, hc⟩ := hex
            exact ⟨p, List.mem_append_left _ hp, hk, hc⟩
          · intro p hp hk
            rcases List.mem_append.1 hp with h3 | h3
            · exact hall p h3 hk
            · simp only [List.mem_singleton] at h3
              subst h3
              exact absurd hk.symm h2

theorem dictInv_foldPairs (ps : List (Str × MatchR)) {P : List (Str × MatchR)}
    {acc : Dict} (hps : ∀ p ∈ ps, minScore < p.2.score) (hinv : dictInv P acc) :
    dictInv (P ++ ps) (foldPairs ps acc) := by
  induction ps generalizing P acc with
  | nil => simpa [foldPairs] using hinv
  | cons p ps ih =>
    have hstep := dictInv_step (v := p.1) (m := p.2) (hps p (List.mem_cons_self _ _)) hinv
    have := ih (fun p' hp' => hps p' (List.mem_cons_of_mem _ hp')) hstep
    rw [List.append_assoc] at this
    simpa [foldPairs, List.singleton_append] using this

theorem procMatch_notKept {v : Str} {acc : Dict} {m : MatchR}
    (h : ¬ minScore < m.score) : procMatch v acc m = acc := by
  unfold procMatch
  rw [if_neg h]

theorem foldl_procMatch_filter (v : Str) (ms : List MatchR) (acc : Dict) :
    ms.foldl (procMatch v) acc =
      (ms.filter fun m => minScore < m.score).foldl (procMatch v) acc := by
  induction ms generalizing acc with
  | nil => rfl
  | cons m ms ih =>
    by_cases h : minScore < m.score
    · rw [List.foldl_cons, List.filter_cons_of_pos (by simpa using h), List.foldl_cons]
      exact ih _
    · rw [List.foldl_cons, List.filter_cons_of_neg (by simpa using h),
        procMatch_notKept h]
      exact ih _

theorem procVariant_eq_foldPairs (o : Str → Option (List MatchR)) (acc : Dict)
    (v : Str) : procVariant o acc v = foldPairs (pairsOf o v) acc := by
  unfold procVariant pairsOf
  cases o v with
  | none => rfl
  | some ms =>
    dsimp only
    rw [foldPairs, List.foldl_map]
    exact foldl_procMatch_filter v ms acc

theorem foldPairs_append (ps1 ps2 : List (Str × MatchR)) (acc : Dict) :
    foldPairs (ps1 ++ ps2) acc = foldPairs ps2 (foldPairs ps1 acc) := by
  unfold foldPairs
  exact List.foldl_append _ _ _ _

theorem accumContacts_eq (q : Str) (o : Str → Option (List MatchR)) :
    accumContacts q o = foldPairs (keptPairs q o) [] := by
  unfold accumContacts keptPairs
  generalize preprocessQuery q = vs
  induction vs using List.reverseRecOn with
  | nil => rfl
  | append_singleton vs v ih =>
    rw [List.foldl_append, List.foldl_cons, List.foldl_nil,
      List.flatMap_append, foldPairs_append, ih,
      procVariant_eq_foldPairs]
    simp [List.flatMap_cons]

theorem keptPairs_score {q : Str} {o : Str → Option (List MatchR)} :
    ∀ p ∈ keptPairs q o, minScore < p.2.score := by
  intro p hp
  obtain ⟨v, _, hv⟩ := List.mem_flatMap.1 hp
  unfold pairsOf at hv
  cases ho : o v with
  | none => rw [ho] at hv; cases hv
  | some ms =>
    rw [ho] at hv
    dsimp only at hv
    obtain ⟨m, hm, hpm⟩ := List.mem_map.1 hv
    have := (List.mem_filter.1 hm).2
    rw [← hpm]
    simpa using this

theorem dictInv_accum (q : Str) (o : Str → Option (List MatchR)) :
    dictInv (keptPairs q o) (accumContacts q o) := by
  have base : dictInv [] [] := by
    refine ⟨List.nodup_nil, ?_, ?_⟩ <;> intro p hp <;> cases hp
  have h := dictInv_foldPairs (keptPairs q o) keptPairs_score base
  rw [accumContacts_eq]
  simpa using h

theorem insertDesc_perm (c : Contact) (l : List Contact) :
    List.Perm (insertDesc c l) (c :: l) := by
  induction l with
  | nil => rfl
  | cons d ds ih =>
    unfold insertDesc
    by_cases h : c.score < d.score
    · rw [if_pos h]
      exact (ih.cons d).trans (List.Perm.swap c d ds)
    · rw [if_neg h]

theorem sortDesc_perm (l : List Contact) : List.Perm (sortDesc l) l := by
  induction l with
  | nil => rfl
  | cons c cs ih =>
    have : sortDesc (c :: cs) = insertDesc c (sortDesc cs) := rfl
    rw [this]
    exact (insertDesc_perm c (sortDesc cs)).trans (ih.cons c)

theorem insertDesc_sorted {c : Contact} {l : List Contact}
    (hl : l.Pairwise fun a b => b.score ≤ a.score) :
    (insertDesc c l).Pairwise fun a b => b.score ≤ a.score := by
  induction l with
  | nil => exact List.pairwise_singleton _ _
  | cons d ds ih =>
    rw [List.pairwise_cons] at hl
    obtain ⟨hd, hds⟩ := hl
    unfold insertDesc
    by_cases h : c.score < d.score
    · rw [if_pos h]
      rw [List.pairwise_cons]
      refine ⟨?_, ih hds⟩
      intro x hx
      rcases List.mem_cons.1 ((insertDesc_perm c ds).mem_iff.1 hx) with h1 | h1
      · exact h1 ▸ le_of_lt h
      · exact hd x h1
    · rw [if_neg h]
      rw [List.pairwise_cons]
      push_neg at h
      refine ⟨?_, List.pairwise_cons.2 ⟨hd, hds⟩⟩
      intro x hx
      rcases List.mem_cons.1 hx with h1 | h1
      · exact h1 ▸ h
      · exact le_trans (hd x h1) h

theorem sortDesc_sorted (l : List Contact) :
    (sortDesc l).Pairwise fun a b => b.score ≤ a.score := by
  induction l with
  | nil => exact List.Pairwise.nil
  | cons c cs ih => exact insertDesc_sorted ih

theorem insertDesc_filter {c : Contact} {l : List Contact} {s : ℚ}
    (hl : l.Pairwise fun a b => b.score ≤ a.score) :
    (insertDesc c l).filter (fun d => d.score = s) =
      if c.score = s then c :: l.filter (fun d => d.score = s)
      else l.filter (fun d => d.score = s) := by
  induction l with
  | nil =>
    unfold insertDesc
    by_cases h : c.score = s
    · rw [if_pos h, List.filter_cons_of_pos (by simpa using h)]
    · rw [if_neg h, List.filter_cons_of_neg (by simpa using h)]
  | cons d ds ih =>
    rw [List.pairwise_cons] at hl
    obtain ⟨hd, hds⟩ := hl
    unfold insertDesc
    by_cases h : c.score < d.score
    · rw [if_pos h]
      by_cases hcs : c.score = s
      · have hdns : ¬ d.score = s := by
          intro hds'
          rw [hds', ← hcs] at h
          exact lt_irrefl _ h
        rw [if_pos hcs, List.filter_cons_of_neg (by simpa using hdns),
          List.filter_cons_of_neg (by simpa using hdns), ih hds, if_pos hcs]
      · by_cases hdss : d.score = s
        · rw [if_neg hcs, List.filter_cons_of_pos (by simpa using hdss),
            List.filter_cons_of_pos (by simpa using hdss), ih hds, if_neg hcs]
        · rw [if_neg hcs, List.filter_cons_of_neg (by simpa using hdss),
            List.filter_cons_of_neg (by simpa using hdss), ih hds, if_neg hcs]
    · rw [if_neg h]
      by_cases hcs : c.score = s
      · rw [if_pos hcs, List.filter_cons_of_pos (by simpa using hcs)]
      · rw [if_neg hcs, List.filter_cons_of_neg (by simpa using hcs)]

theorem sortDesc_filter (l : List Contact) (s : ℚ) :
    (sortDesc l).filter (fun d => d.score = s) =
      l.filter (fun d => d.score = s) := by
  induction l with
  | nil => rfl
  | cons c cs ih =>
    have h1 : sortDesc (c :: cs) = insertDesc c (sortDesc cs) := rfl
    rw [h1, insertDesc_filter (sortDesc_sorted cs), ih]
    by_cases h : c.score = s
    · rw [if_pos h, List.filter_cons_of_pos (by simpa using h)]
    · rw [if_neg h, List.filter_cons_of_neg (by simpa using h)]

theorem mem_searchContacts {q : Str} {k : Nat}
    {o : Str → Option (List MatchR)} {c : Contact}
    (h : c ∈ searchContacts q k o) : c ∈ (accumContacts q o).map Prod.snd := by
  unfold searchContacts at h
  have h1 : c ∈ sortDesc ((accumContacts q o).map Prod.snd) :=
    (List.take_sublist _ _).mem h
  exact (sortDesc_perm _).mem_iff.1 h1

theorem searchContacts_spec {q : Str} {k : Nat}
    {o : Str → Option (List MatchR)} {c : Contact}
    (h : c ∈ searchContacts q k o) :
    (∃ p ∈ keptPairs q o, keyOf p.2 = c.name ∧ c = mkContact p.2 p.1) ∧
    (∀ p ∈ keptPairs q o, keyOf p.2 = c.name → round3 p.2.score ≤ c.score) := by
  obtain ⟨pr, hpr, hsnd⟩ := List.mem_map.1 (mem_searchContacts h)
  have hOK := (dictInv_accum q o).2.2 pr hpr
  obtain ⟨hname, hex, hall⟩ := hOK
  subst hsnd
  rw [hname]
  exact ⟨hex, hall⟩

theorem searchContacts_names_pairwise (q : Str) (k : Nat)
    (o : Str → Option (List MatchR)) :
    (searchContacts q k o).Pairwise fun a b => a.name ≠ b.name := by
  have hnd := (dictInv_accum q o).1
  have hent := (dictInv_accum q o).2.2
  have h1 : (accumContacts q o).Pairwise fun p1 p2 => p1.1 ≠ p2.1 :=
    (List.pairwise_map).1 hnd
  have h2 : (accumContacts q o).Pairwise fun p1 p2 => p1.2.name ≠ p2.2.name := by
    refine h1.imp_of_mem ?_
    intro a b ha hb hne
    rw [(hent a ha).1, (hent b hb).1]
    exact hne
  have h3 : ((accumContacts q o).map Prod.snd).Pairwise
      fun a b => a.name ≠ b.name := (List.pairwise_map).2 h2
  have h4 : (sortDesc ((accumContacts q o).map Prod.snd)).Pairwise
      fun a b => a.name ≠ b.name := by
    refine ((sortDesc_perm _).pairwise_iff ?_).2 h3
    intro a b hab
    exact hab.symm
  exact h4.sublist (List.take_sublist _ _)

theorem startsWith_mem : ∀ {s pat : Str}, startsWith s pat = true →
    ∀ c ∈ pat, c ∈ s := by
  intro s pat
  induction pat generalizing s with
  | nil => intro _ c hc; cases hc
  | cons b bs ih =>
    intro h c hc
    cases s with
    | nil => simp [startsWith] at h
    | cons a as =>
      simp only [startsWith, Bool.and_eq_true, beq_iff_eq] at h
      obtain ⟨hab, hrest⟩ := h
      rcases List.mem_cons.1 hc with h1 | h1
      · exact h1 ▸ hab ▸ List.mem_cons_self _ _
      · exact List.mem_cons_of_mem _ (ih hrest c h1)

theorem containsS_mem : ∀ {s pat : Str}, containsS s pat = true →
    ∀ c ∈ pat, c ∈ s := by
  intro s
  induction s with
  | nil =>
    intro pat h c hc
    cases pat with
    | nil => cases hc
    | cons b bs => simp [containsS, startsWith] at h
  | cons a as ih =>
    intro pat h c hc
    simp only [containsS, Bool.or_eq_true] at h
    rcases h with h1 | h1
    · exact startsWith_mem h1 c hc
    · exact List.mem_cons_of_mem _ (ih h1 c hc)

theorem containsS_false_of_ws {q pat : Str} (hq : ∀ c ∈ q, isWS c = true)
    (hpat : ∃ c ∈ pat, isWS c = false) : containsS q pat = false := by
  by_contra h
  rw [Bool.not_eq_false] at h
  obtain ⟨c, hc, hcw⟩ := hpat
  have := hq c (containsS_mem h c hc)
  rw [this] at hcw
  cases hcw

theorem pyLower_ws {c : Char} (h : isWS c = true) : pyLower c = c := by
  simp only [isWS, Bool.or_eq_true, decide_eq_true_eq] at h
  rcases h with ((h | h) | h) | h <;> subst h <;> rfl

theorem toLowerStr_ws {q : Str} (hq : ∀ c ∈ q, isWS c = true) :
    toLowerStr q = q := by
  induction q with
  | nil => rfl
  | cons c t ih =>
    unfold toLowerStr at *
    rw [List.map_cons, pyLower_ws (hq c (List.mem_cons_self _ _)),
      ih fun c' hc' => hq c' (List.mem_cons_of_mem _ hc')]

theorem strip_ws {q : Str} (hq : ∀ c ∈ q, isWS c = true) : strip q = [] := by
  unfold strip
  have h1 : q.dropWhile isWS = [] := by
    rw [List.dropWhile_eq_nil_iff]
    intro c hc
    exact hq c hc
  rw [h1]
  rfl

theorem splitWSAux_ws {q : Str} (hq : ∀ c ∈ q, isWS c = true) :
    splitWSAux q [] = [] := by
  induction q with
  | nil => rfl
  | cons c t ih =>
    unfold splitWSAux
    rw [if_pos (hq c (List.mem_cons_self _ _)), if_pos rfl]
    exact ih fun c' hc' => hq c' (List.mem_cons_of_mem _ hc')

theorem flatMap_nil_of {α β : Type} {l : List α} {f : α → List β}
    (h : ∀ a ∈ l, f a = []) : l.flatMap f = [] := by
  induction l with
  | nil => rfl
  | cons a t ih =>
    rw [List.flatMap_cons, h a (List.mem_cons_self _ _),
      ih fun a' ha' => h a' (List.mem_cons_of_mem _ ha')]
    rfl

theorem corrSnapshots_nil {table : List (Str × Str)} {cq : Str}
    (h : ∀ e ∈ table, containsS cq e.1 = false) :
    corrSnapshots table cq = [] := by
  induction table with
  | nil => rfl
  | cons e t ih =>
    obtain ⟨w, r⟩ := e
    unfold corrSnapshots
    rw [if_neg (by simp [h (w, r) (List.mem_cons_self _ _)])]
    exact ih fun e' he' => h e' (List.mem_cons_of_mem _ he')

theorem preprocessQuery_ws {q : Str} (hq : ∀ c ∈ q, isWS c = true) :
    preprocessQuery q = [[]] := by
  have hlow : toLowerStr q = q := toLowerStr_ws hq
  have hcorr : corrVariants q = [] := by
    unfold corrVariants
    rw [hlow]
    refine corrSnapshots_nil ?_
    intro e he
    refine containsS_false_of_ws hq ?_
    revert e he
    decide
  have hplural : pluralVariants q = [] := by
    unfold pluralVariants splitWS
    rw [splitWSAux_ws hq]
    rfl
  have hsyn : synVariants q = [] := by
    unfold synVariants
    rw [hlow]
    refine flatMap_nil_of ?_
    intro p hp
    rw [if_neg ?_]
    rw [containsS_false_of_ws hq ?_]
    · simp
    · revert p hp
      decide
  rw [preprocessQuery, hcorr, hplural, hsyn, strip_ws hq]
  rfl

theorem pyLower_notUpper (c : Char) : pyLower c ∉ upperChars := by
  unfold pyLower
  cases hf : lowerPairs.find? fun p => p.1 = c with
  | none =>
    show c ∉ upperChars
    intro hc
    have hall := List.find?_eq_none.1 hf
    have hfst : ∀ u ∈ upperChars, ∃ p ∈ lowerPairs, p.1 = u := by decide
    obtain ⟨p, hp, hp1⟩ := hfst c hc
    exact absurd (by simpa using hp1) (by simpa using hall p hp)
  | some p =>
    show p.2 ∉ upperChars
    have hp : p ∈ lowerPairs := List.mem_of_find?_eq_some hf
    have hsnd : ∀ p ∈ lowerPairs, p.2 ∉ upperChars := by decide
    exact hsnd p hp

theorem toLowerStr_notUpper {q : Str} : ∀ c ∈ toLowerStr q, c ∉ upperChars := by
  intro c hc
  obtain ⟨d, _, hd⟩ := List.mem_map.1 hc
  exact hd ▸ pyLower_notUpper d

theorem replaceAllFuel_mem : ∀ (fuel : Nat) (s pat rep : Str),
    ∀ c ∈ replaceAllFuel fuel s pat rep, c ∈ s ∨ c ∈ rep := by
  intro fuel
  induction fuel with
  | zero =>
    intro s pat rep c hc
    exact Or.inl hc
  | succ n ih =>
    intro s pat rep x hx
    cases s with
    | nil =>
      simp only [replaceAllFuel] at hx
      cases hx
    | cons c t =>
      simp only [replaceAllFuel] at hx
      by_cases h : pat.length ≠ 0 ∧ startsWith (c :: t) pat = true
      · rw [if_pos h] at hx
        rcases List.mem_append.1 hx with h1 | h1
        · exact Or.inr h1
        · rcases ih _ pat rep x h1 with h2 | h2
          · exact Or.inl ((List.drop_sublist _ _).mem h2)
          · exact Or.inr h2
      · rw [if_neg h] at hx
        rcases List.mem_cons.1 hx with h1 | h1
        · exact Or.inl (h1 ▸ List.mem_cons_self _ _)
        · rcases ih t pat rep x h1 with h2 | h2
          · exact Or.inl (List.mem_cons_of_mem _ h2)
          · exact Or.inr h2

theorem replaceAll_mem : ∀ (s pat rep : Str), ∀ c ∈ replaceAll s pat rep,
    c ∈ s ∨ c ∈ rep := by
  intro s pat rep
  exact replaceAllFuel_mem s.length s pat rep

theorem corrSnapshots_notUpper {table : List (Str × Str)} {cq : Str}
    (hcq : ∀ c ∈ cq, c ∉ upperChars)
    (htab : ∀ e ∈ table, ∀ c ∈ e.2, c ∉ upperChars) :
    ∀ v ∈ corrSnapshots table cq, ∀ c ∈ v, c ∉ upperChars := by
  induction table generalizing cq with
  | nil => intro v hv; cases hv
  | cons e t ih =>
    obtain ⟨w, r⟩ := e
    intro v hv c hc
    unfold corrSnapshots at hv
    by_cases h : containsS cq w = true
    · rw [if_pos h] at hv
      have hcq2 : ∀ c ∈ replaceAll cq w r, c ∉ upperChars := by
        intro c' hc'
        rcases replaceAll_mem cq w r c' hc' with h1 | h1
        · exact hcq c' h1
        · exact htab (w, r) (List.mem_cons_self _ _) c' h1
      rcases List.mem_cons.1 hv with h1 | h1
      · exact hcq2 c (h1 ▸ hc)
      · exact ih hcq2 (fun e' he' => htab e' (List.mem_cons_of_mem _ he')) v h1 c hc
    · rw [if_neg h] at hv
      exact ih hcq (fun e' he' => htab e' (List.mem_cons_of_mem _ he')) v hv c hc

theorem corrVariants_notUpper (q : Str) :
    ∀ v ∈ corrVariants q, ∀ c ∈ v, c ∉ upperChars := by
  refine corrSnapshots_notUpper (fun c hc => toLowerStr_notUpper c hc) ?_
  decide

theorem synVariants_notUpper (q : Str) :
    ∀ v ∈ synVariants q, ∀ c ∈ v, c ∉ upperChars := by
  intro v hv c hc
  unfold synVariants at hv
  obtain ⟨p, hp, hv2⟩ := List.mem_flatMap.1 hv
  by_cases h : containsS (toLowerStr q) p.1 = true
  · rw [if_pos h] at hv2
    obtain ⟨e, he, hve⟩ := List.mem_map.1 hv2
    subst hve
    rcases replaceAll_mem _ _ _ c hc with h1 | h1
    · exact toLowerStr_notUpper c h1
    · have hexp : ∀ p ∈ roleExpansions, ∀ e ∈ p.2, ∀ c ∈ e, c ∉ upperChars := by
        decide
      exact hexp p hp e he c h1
  · rw [if_neg h] at hv2
    cases hv2

theorem joinWith_mem {sep : Str} : ∀ {ws : List Str}, ∀ c ∈ joinWith sep ws,
    c ∈ sep ∨ ∃ w ∈ ws, c ∈ w := by
  intro ws
  induction ws with
  | nil => intro c hc; cases hc
  | cons w ws ih =>
    intro c hc
    cases ws with
    | nil =>
      exact Or.inr ⟨w, List.mem_cons_self _ _, hc⟩
    | cons w2 rest =>
      rw [show joinWith sep (w :: w2 :: rest) = w ++ sep ++ joinWith sep (w2 :: rest)
        from rfl] at hc
      rcases List.mem_append.1 hc with h1 | h1
      · rcases List.mem_append.1 h1 with h2 | h2
        · exact Or.inr ⟨w, List.mem_cons_self _ _, h2⟩
        · exact Or.inl h2
      · rcases ih c h1 with h2 | ⟨w', hw', hc'⟩
        · exact Or.inl h2
        · exact Or.inr ⟨w', List.mem_cons_of_mem _ hw', hc'⟩

theorem splitWSAux_mem : ∀ (s acc : Str) (w : Str), w ∈ splitWSAux s acc →
    ∀ c ∈ w, c ∈ s ∨ c ∈ acc := by
  intro s
  induction s with
  | nil =>
    intro acc w hw c hc
    unfold splitWSAux at hw
    by_cases h : acc = ([] : Str)
    · rw [if_pos h] at hw
      cases hw
    · rw [if_neg h] at hw
      rcases List.mem_singleton.1 hw with rfl
      exact Or.inr (List.mem_reverse.1 hc)
  | cons a t ih =>
    intro acc w hw c hc
    unfold splitWSAux at hw
    by_cases h : isWS a = true
    · rw [if_pos h] at hw
      by_cases h2 : acc = ([] : Str)
      · rw [if_pos h2] at hw
        rcases ih [] w hw c hc with h3 | h3
        · exact Or.inl (List.mem_cons_of_mem _ h3)
        · cases h3
      · rw [if_neg h2] at hw
        rcases List.mem_cons.1 hw with h3 | h3
        · exact Or.inr (List.mem_reverse.1 (h3 ▸ hc))
        · rcases ih [] w h3 c hc with h4 | h4
          · exact Or.inl (List.mem_cons_of_mem _ h4)
          · cases h4
    · rw [if_neg h] at hw
      rcases ih (a :: acc) w hw c hc with h3 | h3
      · exact Or.inl (List.mem_cons_of_mem _ h3)
      · rcases List.mem_cons.1 h3 with h4 | h4
        · exact Or.inl (h4 ▸ List.mem_cons_self _ _)
        · exact Or.inr h4

theorem splitWS_mem {q : Str} {w : Str} (hw : w ∈ splitWS q) :
    ∀ c ∈ w, c ∈ q := by
  intro c hc
  rcases splitWSAux_mem q [] w hw c hc with h | h
  · exact h
  · cases h

theorem pluralVariants_upper_from (q : Str) :
    ∀ v ∈ pluralVariants q, ∀ c ∈ v, c ∈ upperChars → c ∈ q := by
  intro v hv c hc hcu
  unfold pluralVariants at hv
  obtain ⟨p, hp, hv2⟩ := List.mem_flatMap.1 hv
  have hword : p.2 ∈ splitWS q := by
    have h1 := List.mem_enum_iff_getElem?.1 hp
    exact List.getElem?_mem h1
  have hwq : ∀ c' ∈ p.2, c' ∈ q := splitWS_mem hword
  have hset : ∀ (x : Str), (∀ c' ∈ x, c' ∈ q ∨ c' ∉ upperChars) →
      ∀ c' ∈ joinSp ((splitWS q).set p.1 x), c' ∈ q ∨ c' ∉ upperChars := by
    intro x hx c' hc'
    rcases joinWith_mem c' hc' with h1 | ⟨w', hw', hcw⟩
    · right
      rcases List.mem_singleton.1 h1 with rfl
      decide
    · rcases List.mem_or_eq_of_mem_set hw' with h2 | h2
      · exact Or.inl (splitWS_mem h2 c' hcw)
      · exact hx c' (h2 ▸ hcw)
  unfold pluralAt at hv2
  have hconc : c ∈ q ∨ c ∉ upperChars := by
    rcases List.mem_append.1 hv2 with h1 | h1
    · by_cases hcond : endsWithS (toLowerStr p.2) (S "s") = false ∧
        3 < (toLowerStr p.2).length
      · rw [if_pos hcond] at h1
        rcases List.mem_singleton.1 h1 with rfl
        refine hset (p.2 ++ S "s") ?_ c hc
        intro c' hc'
        rcases List.mem_append.1 hc' with h2 | h2
        · exact Or.inl (hwq c' h2)
        · right
          rcases List.mem_singleton.1 h2 with rfl
          decide
      · rw [if_neg hcond] at h1
        cases h1
    · by_cases hcond : endsWithS (toLowerStr p.2) (S "s") = true ∧
        4 < (toLowerStr p.2).length
      · rw [if_pos hcond] at h1
        rcases List.mem_singleton.1 h1 with rfl
        refine hset p.2.dropLast ?_ c hc
        intro c' hc'
        exact Or.inl (hwq c' ((List.dropLast_sublist _).mem hc'))
      · rw [if_neg hcond] at h1
        cases h1
  rcases hconc with h | h
  · exact h
  · exact absurd hcu h

theorem strip_mem {q : Str} {c : Char} (h : c ∈ strip q) : c ∈ q := by
  unfold strip at h
  have h1 := List.mem_reverse.1 h
  have h2 := (List.dropWhile_sublist _).mem h1
  have h3 := List.mem_reverse.1 h2
  exact (List.dropWhile_sublist _).mem h3

theorem countP_le_one_of_pairwise_ne {l : List Contact} {n : Str}
    (h : l.Pairwise fun a b => a.name ≠ b.name) :
    (l.countP fun c => c.name = n) ≤ 1 := by
  induction l with
  | nil => simp
  | cons c t ih =>
    rw [List.pairwise_cons] at h
    obtain ⟨hc, ht⟩ := h
    rw [List.countP_cons]
    by_cases hn : c.name = n
    · have hzero : (t.countP fun c => c.name = n) = 0 := by
        rw [List.countP_eq_zero]
        intro x hx
        simp only [decide_eq_true_eq]
        intro hxn
        exact hc x hx (hn ▸ hxn.symm ▸ rfl)
      simp [hzero, hn]
    · simp only [hn]
      simpa using ih ht

theorem preprocessQuery_cons (q : Str) :
    preprocessQuery q = (strip q ::
      dedupCIAux [toLowerStr (strip q)]
        (corrVariants q ++ pluralVariants q ++ synVariants q)).take 5 := by
  rfl

section Claims

attribute [local semireducible] Rat.add Rat.mul Rat.sub

/-- Oracle for C1: both the original variant "dev" and the later synonym
    variant "developer" return the same match "ann" with the same raw score
    0.3004 (which rounds down to 0.3). -/
def oC1 : Str → Option (List MatchR) := fun v =>
  if v = S "dev" then some [⟨mkRat 3004 10000, some (S "ann"), none, none, none, none⟩]
  else if v = S "developer" then
    some [⟨mkRat 3004 10000, some (S "ann"), none, none, none, none⟩]
  else some []

/-- Claim C1 counterexample: the variants of "dev" are
    ["dev", "developer", "engineer", "software engineer"]; the index returns
    the contact "ann" with the identical raw score 0.3004 under the first
    variant "dev" and under the later variant "developer"; because the
    stored entry's score is rounded to 0.3 before the comparison
    `stored.score >= match.score`, the later variant's entry replaces the
    earlier one, so on this exact raw-score tie the surviving `query_used`
    is "developer", not the earlier (higher-priority) variant "dev" —
    contradicting the claim that ties keep the earlier variant's entry. -/
theorem c1_counterexample :
    preprocessQuery (S "dev") =
      [S "dev", S "developer", S "engineer", S "software engineer"] ∧
    oC1 (S "dev") = some [⟨mkRat 3004 10000, some (S "ann"), none, none, none, none⟩] ∧
    oC1 (S "developer") =
      some [⟨mkRat 3004 10000, some (S "ann"), none, none, none, none⟩] ∧
    searchContacts (S "dev") 5 oC1 =
      [⟨S "ann", [], [], [], [], mkRat 3 10, S "developer"⟩] ∧
    S "developer" ≠ S "dev" := by
  decide

/-- Claim C1 (amended): the result list of `_search_contacts` never holds
    two entries with the same name; every returned contact was built from
    one of the kept index matches with its key, and its (rounded) stored
    score dominates the rounded score of every kept match with that key;
    and an incoming match is discarded exactly when the stored entry's
    rounded score is at or above the incoming raw score — so a tie is kept
    by the earlier variant only up to the 3-decimal rounding of the stored
    score. -/
theorem c1_amended : ∀ (q : Str) (k : Nat) (o : Str → Option (List MatchR)),
    (searchContacts q k o).Pairwise (fun a b => a.name ≠ b.name) ∧
    (∀ c ∈ searchContacts q k o,
      (∃ p ∈ keptPairs q o, keyOf p.2 = c.name ∧ c = mkContact p.2 p.1) ∧
      (∀ p ∈ keptPairs q o, keyOf p.2 = c.name → round3 p.2.score ≤ c.score)) ∧
    (∀ (v : Str) (acc : Dict) (m : MatchR) (c : Contact),
      lookupA acc (keyOf m) = some c → m.score ≤ c.score →
      procMatch v acc m = acc) := by
  intro q k o
  refine ⟨searchContacts_names_pairwise q k o, ?_, ?_⟩
  · intro c hc
    exact searchContacts_spec hc
  · intro v acc m c hl hle
    unfold procMatch
    by_cases hs : minScore < m.score
    · rw [if_pos hs, hl]
      dsimp only
      rw [if_pos hle]
    · rw [if_neg hs]

/-- Claim C1 witness: the amended theorem applied to the C1 oracle. -/
theorem c1_witness :
    (searchContacts (S "dev") 5 oC1).Pairwise (fun a b => a.name ≠ b.name) ∧
    round3 (mkRat 3004 10000) ≤ mkRat 3 10 := by
  refine ⟨(c1_amended (S "dev") 5 oC1).1, ?_⟩
  exact ((c1_amended (S "dev") 5 oC1).2.1
    ⟨S "ann", [], [], [], [], mkRat 3 10, S "developer"⟩ (by decide)).2
    (S "dev", ⟨mkRat 3004 10000, some (S "ann"), none, none, none, none⟩)
    (by decide) (by decide)

/-- Oracle for C2: the Similarity Index returns a match for the empty
    variant. -/
def oC2 : Str → Option (List MatchR) := fun v =>
  if v = ([] : Str) then some [⟨mkRat 9 10, some (S "bob"), none, none, none, none⟩]
  else some []

/-- Claim C2 counterexample: for the empty query, `_search_contacts`
    performs an embedding call for the single empty variant (it is not
    rejected before any provider call), and any matches the index returns
    for it are processed and returned as ordinary results — the empty
    query is treated as a valid search, with no prompt-for-clarification
    path in `_search_contacts` or `_search_contacts_tool`. -/
theorem c2_counterexample :
    embedCalls [] = [[]] ∧
    searchContacts [] 5 oC2 = [⟨S "bob", [], [], [], [], mkRat 9 10, []⟩] := by
  decide

/-- Claim C2 (amended): an empty or whitespace-only query is not rejected:
    it flows through the normal pipeline with the single stripped (empty)
    variant, one embedding call is made with that empty string, and the
    search behaves exactly as a search for the empty string. -/
theorem c2_amended : ∀ (q : Str) (k : Nat) (o : Str → Option (List MatchR)),
    (∀ c ∈ q, isWS c = true) →
    embedCalls q = [[]] ∧ searchContacts q k o = searchContacts [] k o := by
  intro q k o hq
  have hpre : preprocessQuery q = [[]] := preprocessQuery_ws hq
  have hnil : preprocessQuery ([] : Str) = [[]] :=
    preprocessQuery_ws fun c hc => absurd hc (List.not_mem_nil c)
  constructor
  · rw [embedCalls, hpre]
  · unfold searchContacts accumContacts
    rw [hpre, hnil]

/-- Claim C2 witness: the amended theorem applied to a one-space query. -/
theorem c2_witness :
    embedCalls (S " ") = [[]] ∧
    searchContacts (S " ") 3 oC2 = searchContacts [] 3 oC2 :=
  c2_amended (S " ") 3 oC2 (by decide)

/-- Claim C3: a per-variant failure (oracle `none`, modelling an exception
    caught by the per-variant `try`) leaves the accumulated dictionary
    unchanged — only that variant is skipped; and when every variant
    fails, `_search_contacts` returns the empty list.  In the model the
    function is total, mirroring the source's outer `try/except` which
    returns `[]` instead of raising. -/
theorem c3_degrades_gracefully : ∀ (q : Str) (k : Nat)
    (o : Str → Option (List MatchR)),
    (∀ (acc : Dict) (v : Str), o v = none → procVariant o acc v = acc) ∧
    ((∀ v ∈ preprocessQuery q, o v = none) → searchContacts q k o = []) := by
  intro q k o
  constructor
  · intro acc v hv
    unfold procVariant
    rw [hv]
  · intro hall
    have haux : ∀ (vs : List Str) (acc : Dict), (∀ v ∈ vs, o v = none) →
        vs.foldl (procVariant o) acc = acc := by
      intro vs
      induction vs with
      | nil => intro acc _; rfl
      | cons v t ih =>
        intro acc hvs
        rw [List.foldl_cons]
        have h1 : procVariant o acc v = acc := by
          unfold procVariant
          rw [hvs v (List.mem_cons_self _ _)]
        rw [h1]
        exact ih _ fun v' hv' => hvs v' (List.mem_cons_of_mem _ hv')
    unfold searchContacts accumContacts
    rw [haux _ _ hall]
    exact List.take_nil

/-- Claim C3 witness: with an oracle failing on every variant, the call
    returns the empty list. -/
theorem c3_witness : searchContacts (S "designer") 3 (fun _ => none) = [] :=
  (c3_degrades_gracefully (S "designer") 3 (fun _ => none)).2 fun _ _ => rfl

/-- Claim C4 counterexample: for the query " pm" (leading space), the first
    returned variant is the stripped text "pm", not the raw text " pm"
    unchanged. -/
theorem c4_counterexample :
    (preprocessQuery (S " pm")).head? = some (S "pm") ∧
    S "pm" ≠ S " pm" ∧
    preprocessQuery (S " pm") =
      [S "pm", S " product manager", S " project manager", S " manager"] := by
  decide

/-- Claim C4 (amended): `_preprocess_query` returns between 1 and 5
    variants, and the first variant is the query's text with surrounding
    whitespace stripped (`query.strip()`), which equals the raw text only
    when the raw text has no leading or trailing whitespace. -/
theorem c4_amended : ∀ q : Str,
    1 ≤ (preprocessQuery q).length ∧ (preprocessQuery q).length ≤ 5 ∧
    (preprocessQuery q).head? = some (strip q) := by
  intro q
  rw [preprocessQuery_cons]
  refine ⟨?_, ?_, ?_⟩
  · rw [List.take_cons (by decide)]
    simp
  · exact List.length_take_le _ _
  · rw [List.take_cons (by decide)]
    rfl

/-- Oracle for C5: the index returns a single match with raw score 0.27 —
    above the code's 0.25 threshold but below the 0.3 the spec claims. -/
def oC5 : Str → Option (List MatchR) := fun v =>
  if v = S "rust" then some [⟨mkRat 27 100, some (S "bob"), none, none, none, none⟩]
  else some []

/-- Claim C5 counterexample: a match with score 0.27 is kept and returned
    by `_search_contacts`, so the end-to-end default threshold is not 0.3:
    the hard-coded filter is `match.score > 0.25`. -/
theorem c5_counterexample :
    searchContacts (S "rust") 5 oC5 =
      [⟨S "bob", [], [], [], [], mkRat 27 100, S "rust"⟩] ∧
    mkRat 27 100 < mkRat 3 10 := by
  decide

/-- Claim C5 (amended): every contact returned by `_search_contacts` comes
    from a match whose raw score is strictly above the hard-coded
    threshold 0.25 (`minScore`), and its stored (rounded) score is at or
    above 0.25; the fixed default is 0.25 with a strict comparison, not
    0.3. -/
theorem c5_amended : ∀ (q : Str) (k : Nat) (o : Str → Option (List MatchR)),
    ∀ c ∈ searchContacts q k o,
    minScore ≤ c.score ∧
    ∃ p ∈ keptPairs q o, minScore < p.2.score ∧ c.score = round3 p.2.score := by
  intro q k o c hc
  obtain ⟨⟨p, hp, _, hmk⟩, _⟩ := searchContacts_spec hc
  have hsc : c.score = round3 p.2.score := by rw [hmk]; rfl
  have hth := keptPairs_score p hp
  exact ⟨hsc ▸ round3_threshold hth, p, hp, hth, hsc⟩

/-- Claim C5 witness: the amended theorem applied to the C5 oracle. -/
theorem c5_witness :
    minScore ≤ (⟨S "bob", [], [], [], [], mkRat 27 100, S "rust"⟩ : Contact).score :=
  (c5_amended (S "rust") 5 oC5 _ (by decide)).1

/-- Claim C6: the list returned by `_search_contacts` is sorted by score
    descending, its length never exceeds `top_k`, and exact score ties keep
    the contacts' original discovery order: for every score `s`, the
    result's contacts with score `s` form a leading segment of the
    deduplication dictionary's contacts with score `s`, in dictionary
    (insertion) order. -/
theorem c6_sorted_bounded : ∀ (q : Str) (k : Nat)
    (o : Str → Option (List MatchR)),
    (searchContacts q k o).length ≤ k ∧
    (searchContacts q k o).Pairwise (fun a b => b.score ≤ a.score) ∧
    (∀ s : ℚ, ∃ t, ((accumContacts q o).map Prod.snd).filter
        (fun d => d.score = s) =
      (searchContacts q k o).filter (fun d => d.score = s) ++ t) := by
  intro q k o
  refine ⟨List.length_take_le _ _, ?_, ?_⟩
  · exact (sortDesc_sorted _).sublist (List.take_sublist _ _)
  · intro s
    refine ⟨((sortDesc ((accumContacts q o).map Prod.snd)).drop k).filter
      (fun d => d.score = s), ?_⟩
    unfold searchContacts
    rw [← sortDesc_filter ((accumContacts q o).map Prod.snd) s]
    rw [← List.filter_append]
    rw [List.take_append_drop]

/-- The five contacts for the C7 and C7-witness scenario: five names at
    two distinct companies, scores descending. -/
def c7contacts : List Contact :=
  [⟨S "a", [], S "x", [], [], mkRat 9 10, []⟩,
   ⟨S "b", [], S "y", [], [], mkRat 8 10, []⟩,
   ⟨S "c", [], S "x", [], [], mkRat 7 10, []⟩,
   ⟨S "d", [], S "y", [], [], mkRat 6 10, []⟩,
   ⟨S "e", [], S "x", [], [], mkRat 5 10, []⟩]

/-- Claim C7 counterexample: for 5 contacts the formatter joins the first
    three snippets with ", " only — "a at x, b at y, c at x" — there is no
    " and " between the final two snippets, and the remainder is phrased
    ", and 2 more.", not "and 2 others": the output contains no substring
    "others" and no "b at y and c at x". -/
theorem c7_counterexample :
    formatContactResponse c7contacts (S "q") =
      S "I found 5 people matching 'q'. Here are a few: a at x, b at y, c at x, and 2 more." ∧
    containsS (formatContactResponse c7contacts (S "q")) (S "others") = false ∧
    containsS (formatContactResponse c7contacts (S "q")) (S "b at y and c at x") = false := by
  decide

/-- Claim C7 (amended): for more than 3 contacts the formatter lists
    exactly the first 3 contacts as snippets, joined with ", " between all
    of them (no " and " before the last), and appends the remainder count
    phrased ", and N more." where N is the number of remaining contacts. -/
theorem c7_amended : ∀ (cs : List Contact) (q : Str), 3 < cs.length →
    formatContactResponse cs q =
      S "I found " ++ natStr cs.length ++ S " people matching '" ++ q ++ S "'. " ++
        (if (companyKeys cs).length = 1 then
          S "They all work at " ++ (companyKeys cs).headD [] ++ S ". "
         else []) ++
        S "Here are a few: " ++
        joinCommaSp ((cs.take 3).map (snippet (companyKeys cs).length)) ++
        (S ", and " ++ natStr (cs.length - 3) ++ S " more.") ∧
    ((cs.take 3).map (snippet (companyKeys cs).length)).length = 3 := by
  intro cs q hlen
  match cs, hlen with
  | a :: b :: rest, hlen =>
    constructor
    · show multiResp (a :: b :: rest) q = _
      unfold multiResp
      rw [if_pos hlen]
    · rw [List.length_map, List.length_take]
      simp only [List.length_cons] at hlen ⊢
      omega

/-- Claim C7 witness: the amended theorem applied to the five-contact
    scenario. -/
theorem c7_witness : 3 < c7contacts.length ∧
    ((c7contacts.take 3).map (snippet (companyKeys c7contacts).length)).length = 3 :=
  ⟨by decide, (c7_amended c7contacts (S "q") (by decide)).2⟩

/-- Claim C8 counterexample: "dev" is not a whitespace-delimited token of
    the query "devops" (its only token is "devops"), yet the synonym table
    entry for "dev" fires by substring containment and rewrites inside the
    longer word, producing the variant "developerops". -/
theorem c8_counterexample :
    preprocessQuery (S "devops") =
      [S "devops", S "devops engineer", S "devop", S "developerops", S "engineerops"] ∧
    splitWS (S "devops") = [S "devops"] ∧
    (S "dev", [S "developer", S "engineer", S "software engineer"]) ∈ roleExpansions ∧
    S "developerops" = replaceAll (toLowerStr (S "devops")) (S "dev") (S "developer") := by
  decide

/-- Claim C8 (amended): a role-synonym table entry fires exactly when its
    term occurs as a (possibly internal) substring of the lowercased query,
    and each appended variant is the lowercased query with every occurrence
    of that substring replaced by one synonym — not a whole-token
    replacement. -/
theorem c8_amended : ∀ (q v : Str),
    v ∈ synVariants q ↔ ∃ t es e, (t, es) ∈ roleExpansions ∧
      containsS (toLowerStr q) t = true ∧ e ∈ es ∧
      v = replaceAll (toLowerStr q) t e := by
  intro q v
  simp only [synVariants, List.mem_flatMap]
  constructor
  · rintro ⟨p, hp, hv⟩
    by_cases h : containsS (toLowerStr q) p.1 = true
    · rw [if_pos h] at hv
      obtain ⟨e, he, hve⟩ := List.mem_map.1 hv
      exact ⟨p.1, p.2, e, by rw [Prod.mk.eta]; exact hp, h, he, hve.symm⟩
    · rw [if_neg h] at hv
      cases hv
  · rintro ⟨t, es, e, hte, hcont, he, hv⟩
    refine ⟨(t, es), hte, ?_⟩
    rw [if_pos hcont]
    exact List.mem_map.2 ⟨e, he, hv.symm⟩

/-- Claim C8 witness: the amended theorem instantiated at the "devops"
    query and the "dev" table row. -/
theorem c8_witness : S "developerops" ∈ synVariants (S "devops") :=
  (c8_amended (S "devops") (S "developerops")).2
    ⟨S "dev", [S "developer", S "engineer", S "software engineer"], S "developer",
     by decide, by decide, by decide, by decide⟩

/-- Claim C9: every variant appended by the typo-correction step or the
    synonym-expansion step is built from the lowercased query and the
    all-lowercase tables, so it contains no uppercase character; whereas
    the original (stripped) variant and the singular/plural variants are
    built from the query's own tokens, so any uppercase character they
    contain is an uppercase character of the original query. -/
theorem c9_casing : ∀ q : Str,
    (∀ v ∈ corrVariants q ++ synVariants q, ∀ c ∈ v, c ∉ upperChars) ∧
    (∀ v ∈ strip q :: pluralVariants q, ∀ c ∈ v, c ∈ upperChars → c ∈ q) := by
  intro q
  constructor
  · intro v hv c hc
    rcases List.mem_append.1 hv with h | h
    · exact corrVariants_notUpper q v h c hc
    · exact synVariants_notUpper q v h c hc
  · intro v hv c hc hcu
    rcases List.mem_cons.1 hv with h | h
    · exact strip_mem (h ▸ hc)
    · exact pluralVariants_upper_from q v h c hc hcu

/-- Claim C9 witness: the singular variant "Engineer at Google" of the
    query "Engineers at Google" keeps its uppercase letters, which come
    from the query; and the correction variant "devops engineer" of the
    query "Devops" has no uppercase characters. -/
theorem c9_witness :
    'E' ∈ S "Engineers at Google" ∧ 'd' ∉ upperChars :=
  ⟨(c9_casing (S "Engineers at Google")).2 (S "Engineer at Google")
      (by decide) 'E' (by decide) (by decide),
   (c9_casing (S "Devops")).1 (S "devops engineer") (by decide) 'd' (by decide)⟩

/-- Oracle for the C10 witness: one variant, two unnamed matches (one with
    no metadata name, one with an empty name) with scores 0.5 and 0.6. -/
def oC10 : Str → Option (List MatchR) := fun v =>
  if v = S "x" then
    some [⟨mkRat 1 2, none, none, none, none, none⟩,
          ⟨mkRat 3 5, some [], none, none, none, none⟩]
  else some []

/-- Claim C10: matches whose metadata lacks a name or has an empty name
    all share the deduplication key "" (the empty string), so a returned
    result list holds at most one unnamed contact, and that contact's
    stored score dominates the rounded score of every kept unnamed
    match. -/
theorem c10_unnamed : ∀ (q : Str) (k : Nat) (o : Str → Option (List MatchR)),
    (∀ m : MatchR, m.name = none ∨ m.name = some [] → keyOf m = []) ∧
    ((searchContacts q k o).countP fun c => c.name = []) ≤ 1 ∧
    (∀ c ∈ searchContacts q k o, c.name = [] →
      ∀ p ∈ keptPairs q o, keyOf p.2 = [] → round3 p.2.score ≤ c.score) := by
  intro q k o
  refine ⟨?_, ?_, ?_⟩
  · intro m hm
    rcases hm with h | h <;> rw [keyOf, h] <;> rfl
  · exact countP_le_one_of_pairwise_ne (searchContacts_names_pairwise q k o)
  · intro c hc hname p hp hk
    exact (searchContacts_spec hc).2 p hp (by rw [hk, hname])

/-- Claim C10 witness: with two unnamed matches of scores 0.5 and 0.6,
    the result holds at most one unnamed contact and its score 0.6
    dominates the rounded 0.5. -/
theorem c10_witness :
    ((searchContacts (S "x") 5 oC10).countP fun c => c.name = []) ≤ 1 ∧
    round3 (mkRat 1 2) ≤ mkRat 3 5 := by
  refine ⟨(c10_unnamed (S "x") 5 oC10).2.1, ?_⟩
  exact (c10_unnamed (S "x") 5 oC10).2.2
    ⟨[], [], [], [], [], mkRat 3 5, S "x"⟩ (by decide) rfl
    (S "x", ⟨mkRat 1 2, none, none, none, none, none⟩) (by decide) rfl

end Claims

end VoiceNet
